import Mathlib

/-!
Verification of the embedded-language position-mapping and request-redirection
middleware of the vscode-bitbake extension.

The `Client` namespace embeds the extension-host middleware:
`middlewareDefinition.ts` (definition redirector: `middlewareProvideDefinition`,
`processDefinitions`, `ajustDefinitionRange`, `redirectDefinition`) and
`middlewareCompletion.ts` (completion redirector).  The `Server` namespace
embeds the language-server `onDefinitionHandler` from `definition.ts`.

Helper functions that live in modules not included in the sources
(`utils.ts`, `arrays.ts`) are modelled from the specification; each such
definition carries a doc comment starting with `Modelled from the spec:`.

Asynchronous per-entry processing (`Promise.all` in `processDefinitions`)
is embedded with an explicit completion schedule: callbacks that never await
push their results synchronously, in input order, while callbacks that
suspend on an awaited redirection query push afterwards, in the order given
by the schedule (a permutation of the suspended entries).
-/

namespace Client

/-- A zero-based line/character position (vscode `Position`). -/
structure Position where
  line : Nat
  character : Nat
deriving DecidableEq

/-- A pair of positions (vscode `Range`); the source field `end` is named
`stop` here because `end` is reserved in Lean. -/
structure Range where
  start : Position
  stop : Position
deriving DecidableEq

/-- Convenience constructor mirroring `new Range(l1, c1, l2, c2)`. -/
def Range.mk4 (l1 c1 l2 c2 : Nat) : Range :=
  ⟨⟨l1, c1⟩, ⟨l2, c2⟩⟩

/-- The registry entry for an embedded-language document:
virtual-document URI, language tag and the offset-correspondence table
(entry i is the host character offset for virtual offset i, `none` for
synthetic text with no host counterpart). -/
structure EmbeddedLanguageDocInfos where
  uri : String
  language : String
  characterIndexes : List (Option Nat)
deriving DecidableEq

/-- A definition entry: either a `Location` (uri + range) or a
`LocationLink` (origin selection range + target uri + target range +
optional target selection range). -/
inductive Definition where
  | loc (uri : String) (range : Range)
  | link (originSelectionRange : Option Range) (targetUri : String)
      (targetRange : Range) (targetSelectionRange : Option Range)
deriving DecidableEq

/-- True when the entry is the plain-`Location` shape. -/
def Definition.isLocationShape : Definition → Bool
  | .loc _ _ => true
  | .link _ _ _ _ => false

/-- Modelled from the spec: the definition entry's (target) URI —
`uri` of a Location, `targetUri` of a LocationLink (`getDefinitionUri`
in `utils.ts`, not included in the sources). -/
def getDefinitionUri : Definition → String
  | .loc uri _ => uri
  | .link _ targetUri _ _ => targetUri

/-- The definition entry's target range (`range` of a Location,
`targetRange` of a LocationLink). -/
def getDefinitionRange : Definition → Range
  | .loc _ range => range
  | .link _ _ targetRange _ => targetRange

/-- The definition entry's target selection range when it has one. -/
def getDefinitionSelectionRange : Definition → Option Range
  | .loc _ range => some range
  | .link _ _ _ targetSelectionRange => targetSelectionRange

/-- Modelled from the spec: whether the entry's target URI equals the given
URI (`checkIsDefinitionUriEqual` in `utils.ts`, not included in the
sources). -/
def checkIsDefinitionUriEqual (definition : Definition) (uri : String) : Bool :=
  getDefinitionUri definition == uri

/-- Modelled from the spec: whether the entry's target range exactly equals
the given range (`checkIsDefinitionRangeEqual` in `utils.ts`, not included
in the sources). -/
def checkIsDefinitionRangeEqual (definition : Definition) (range : Range) : Bool :=
  getDefinitionRange definition == range

/-- Modelled from the spec: rewrite the entry's (target) URI
(`changeDefinitionUri` in `utils.ts`, not included in the sources). -/
def changeDefinitionUri (definition : Definition) (uri : String) : Definition :=
  match definition with
  | .loc _ range => .loc uri range
  | .link o _ targetRange targetSelectionRange =>
      .link o uri targetRange targetSelectionRange

/-- Modelled from the spec: coerce a redirected definition to the same shape
(Location vs LocationLink) as the entry it replaces, so the result list is
never a mixed-shape array (`convertToSameDefinitionType` in `utils.ts`, not
included in the sources). -/
def convertToSameDefinitionType (initialDefinition redirectedDefinition : Definition) :
    Definition :=
  match initialDefinition with
  | .loc _ _ =>
      .loc (getDefinitionUri redirectedDefinition) (getDefinitionRange redirectedDefinition)
  | .link _ _ _ _ =>
      .link none (getDefinitionUri redirectedDefinition)
        (getDefinitionRange redirectedDefinition)
        (getDefinitionSelectionRange redirectedDefinition)

/-- The range translator from virtual-document coordinates to host
coordinates (`getOriginalDocRange` in `utils.ts`) is passed as a function
`Range → Option Range`; `none` is a translation failure. -/
abbrev RangeToHost := Range → Option Range

/-- The embedded definition provider
(`commands.executeCommand('vscode.executeDefinitionProvider', uri, position)`)
as an oracle from URI and position to a list of definition entries. -/
abbrev DefinitionProvider := String → Position → List Definition

/-- Embeds `ajustDefinitionRange` of `middlewareDefinition.ts`: map the
entry's range(s) from the embedded document to the original document,
leaving a range unchanged when its translation fails.  The LocationLink
branch reproduces the source exactly: after a successful translation of
`targetSelectionRange`, the source assigns `newTargetRange` — the
translation of `targetRange` — to `definition.targetSelectionRange`. -/
def ajustDefinitionRange (toHost : RangeToHost) (definition : Definition) : Definition :=
  match definition with
  | .loc uri range =>
      match toHost range with
      | some newRange => .loc uri newRange
      | none => .loc uri range
  | .link o targetUri targetRange targetSelectionRange =>
      let newTargetRange := toHost targetRange
      let targetRange' := newTargetRange.getD targetRange
      match targetSelectionRange with
      | none => .link o targetUri targetRange' none
      | some sr =>
          match toHost sr with
          | none => .link o targetUri targetRange' (some sr)
          | some _ => .link o targetUri targetRange' newTargetRange

/-- Embeds `redirectDefinition`: when the entry's range equals the tested
range, query the provider at the redirected position and coerce every
result to the shape of the initial entry; otherwise signal no redirection
with `none`. -/
def redirectDefinition (provider : DefinitionProvider)
    (initialDefinition : Definition) (testedRange : Range)
    (redirectedPosition : Position) : Option (List Definition) :=
  if !checkIsDefinitionRangeEqual initialDefinition testedRange then
    none
  else
    some ((provider (getDefinitionUri initialDefinition) redirectedPosition).map
      (convertToSameDefinitionType initialDefinition))

/-- Where `d` is located in the embedded language document. -/
def dRange : Range := Range.mk4 2 0 2 1

/-- Where `DataSmart` (`data_smart.DataSmart()`) is reachable in the embedded
language document. -/
def dataSmartPosition : Position := ⟨2, 19⟩

/-- Handle `d` in `d.getVar('')`. -/
def getDefinitionOfD (provider : DefinitionProvider) (definition : Definition) :
    Option (List Definition) :=
  redirectDefinition provider definition dRange dataSmartPosition

/-- Where `e` is located in the embedded language document. -/
def eRange : Range := Range.mk4 3 0 3 1

/-- Where `Event` (`event.Event()`) is reachable in the embedded language
document. -/
def eventPosition : Position := ⟨3, 14⟩

/-- Handle `e` in `e.data.getVar('')`. -/
def getDefinitionOfE (provider : DefinitionProvider) (definition : Definition) :
    Option (List Definition) :=
  redirectDefinition provider definition eRange eventPosition

/-- The per-entry body of the `Promise.all` callback in `processDefinitions`:
entries not on the embedded document pass through; python entries try the
redirection functions (`d` first, then `e`); otherwise the URI is rewritten
to the original document and the ranges adjusted. -/
def processOneDefinition (provider : DefinitionProvider) (toHost : RangeToHost)
    (originalUri : String) (infos : EmbeddedLanguageDocInfos)
    (definition : Definition) : List Definition :=
  if !checkIsDefinitionUriEqual definition infos.uri then
    [definition]
  else if infos.language == "python" then
    match getDefinitionOfD provider definition with
    | some redirection => redirection
    | none =>
        match getDefinitionOfE provider definition with
        | some redirection => redirection
        | none =>
            [ajustDefinitionRange toHost (changeDefinitionUri definition originalUri)]
  else
    [ajustDefinitionRange toHost (changeDefinitionUri definition originalUri)]

/-- Whether the `Promise.all` callback for this entry suspends on an await:
exactly the entries on the embedded document of a python registry entry
reach an `await` before pushing (the redirection functions are awaited);
every other entry pushes synchronously while the callbacks are started. -/
def isAsyncEntry (infos : EmbeddedLanguageDocInfos) (definition : Definition) : Bool :=
  checkIsDefinitionUriEqual definition infos.uri && infos.language == "python"

/-- Reorder a list by a completion schedule: `sched` lists indexes in the
order the corresponding asynchronous callbacks complete. -/
def applySched (sched : List Nat) (xs : List (List Definition)) : List (List Definition) :=
  sched.filterMap (fun i => xs.get? i)

/-- Embeds `processDefinitions`: the callbacks started by `Promise.all` push
synchronously, in input order, for entries that never await, and afterwards,
in completion order `sched`, for entries that await. -/
def processDefinitions (provider : DefinitionProvider) (toHost : RangeToHost)
    (originalUri : String) (infos : EmbeddedLanguageDocInfos)
    (definitions : List Definition) (sched : List Nat) : List Definition :=
  let syncParts := (definitions.filter (fun d => !isAsyncEntry infos d)).map
    (processOneDefinition provider toHost originalUri infos)
  let asyncParts := (definitions.filter (isAsyncEntry infos)).map
    (processOneDefinition provider toHost originalUri infos)
  syncParts.flatten ++ (applySched sched asyncParts).flatten

/-- The number of entries whose callback suspends, i.e. the length a valid
completion schedule must cover. -/
def asyncEntryCount (infos : EmbeddedLanguageDocInfos) (definitions : List Definition) : Nat :=
  (definitions.filter (isAsyncEntry infos)).length

/-- The result the `next` delegate hands to `middlewareProvideDefinition`
(`Definition | LocationLink[] | undefined | null` in the source). -/
inductive NextDefinitionResult where
  | undef
  | nullv
  | single (d : Definition)
  | arr (ds : List Definition)
deriving DecidableEq

/-- The guard of the early return in `middlewareProvideDefinition`:
`(Array.isArray(r) && r.length !== 0) || (!Array.isArray(r) && r !== undefined)`. -/
def isReturnedVerbatim : NextDefinitionResult → Bool
  | .undef => false
  | .nullv => true
  | .single _ => true
  | .arr ds => !ds.isEmpty

/-- A non-empty host result in the sense of the specification: a non-empty
array or a single location. -/
def isNonEmptyHostResult : NextDefinitionResult → Bool
  | .single _ => true
  | .arr ds => !ds.isEmpty
  | _ => false

/-- The collaborators `middlewareProvideDefinition` consults, gathered in one
record: the locator answer, the registry entry, the translated position, the
embedded definition provider, the range translator, the host document URI and
the completion schedule of the concurrent per-entry processing. -/
structure DefinitionEnv where
  embeddedLanguageType : Option String
  infos : Option EmbeddedLanguageDocInfos
  adjustedPosition : Position
  provider : DefinitionProvider
  toHost : RangeToHost
  originalUri : String
  sched : List Nat

/-- Embeds `middlewareProvideDefinition`: return a usable host result
verbatim; otherwise fall back to the embedded lookup, returning `undefined`
when the locator or the registry has nothing.  The second component records
whether the embedded definition provider was invoked. -/
def middlewareProvideDefinition (env : DefinitionEnv)
    (nextResult : NextDefinitionResult) : NextDefinitionResult × Bool :=
  if isReturnedVerbatim nextResult then
    (nextResult, false)
  else
    match env.embeddedLanguageType with
    | none => (.undef, false)
    | some _ =>
        match env.infos with
        | none => (.undef, false)
        | some infos =>
            let tempResult := env.provider infos.uri env.adjustedPosition
            (.arr (processDefinitions env.provider env.toHost env.originalUri infos
              tempResult env.sched), true)

/-- The range a completion item may carry: a single replacement range or an
insert/replace pair. -/
inductive CompletionItemRange where
  | single (r : Range)
  | pair (inserting replacing : Range)
deriving DecidableEq

/-- A completion item, reduced to the fields the middleware reads: the
display label and the optional range. -/
structure CompletionItem where
  label : String
  range : Option CompletionItemRange
deriving DecidableEq

/-- Embeds the per-item body of the `forEach` in
`middlewareProvideCompletion`: a single range is replaced by its translation
(which erases it when the translation fails); an insert/replace pair is
replaced only when both halves translate, and the early `return` on failure
leaves the original pair in place. -/
def adjustCompletionItem (toHost : RangeToHost) (item : CompletionItem) : CompletionItem :=
  match item.range with
  | none => item
  | some (.single r) => { item with range := (toHost r).map .single }
  | some (.pair inserting replacing) =>
      match toHost inserting, toHost replacing with
      | some i, some r => { item with range := some (.pair i r) }
      | _, _ => item

/-- Modelled from the spec: merge the arrays into one list, de-duplicating
by the comparison value; the first-seen element with each value survives and
the merged order is first-seen order across the inputs in the order passed
(`mergeArraysDistinctly` in `lib/src/utils/arrays.ts`, not included in the
sources).  `seen` accumulates the comparison values already emitted. -/
def mergeDistinctAux {α β : Type} (f : α → β) [DecidableEq β] :
    List β → List α → List α
  | _, [] => []
  | seen, x :: xs =>
      if f x ∈ seen then mergeDistinctAux f seen xs
      else x :: mergeDistinctAux f (f x :: seen) xs

/-- Modelled from the spec: the variadic `mergeArraysDistinctly`, taking the
arrays as a list. -/
def mergeArraysDistinctly {α β : Type} (f : α → β) [DecidableEq β]
    (arrays : List (List α)) : List α :=
  mergeDistinctAux f [] arrays.flatten

/-- The collaborators `middlewareProvideCompletion` consults: the locator
answer, the registry entry, the items the embedded completion provider
returns and the range translator. -/
structure CompletionEnv where
  embeddedLanguageType : Option String
  infos : Option EmbeddedLanguageDocInfos
  pulledItems : List CompletionItem
  toHost : RangeToHost

/-- Embeds `middlewareProvideCompletion`: the host result is defaulted to
`[]` (`?? []`), returned unchanged when the locator reports no embedded
language, and dropped — the middleware returns `undefined` — when the
registry has no entry; otherwise the pulled items are adjusted and merged,
embedded items first, with the host items. -/
def middlewareProvideCompletion (env : CompletionEnv)
    (nextRaw : Option (List CompletionItem)) : Option (List CompletionItem) :=
  let nextResult := nextRaw.getD []
  match env.embeddedLanguageType with
  | none => some nextResult
  | some _ =>
      match env.infos with
      | none => none
      | some _ =>
          let adjusted := env.pulledItems.map (adjustCompletionItem env.toHost)
          some (mergeArraysDistinctly (fun item => item.label) [adjusted, nextResult])

/-- Modelled from the spec: the line/character position of a character
offset, re-derived by scanning the document text for line breaks (no cached
line table).  Offsets at or past the end of the text clamp. -/
def positionAt : List Char → Nat → Position
  | [], _ => ⟨0, 0⟩
  | _ :: _, 0 => ⟨0, 0⟩
  | c :: cs, o + 1 =>
      let p := positionAt cs o
      if c = '\n' then ⟨p.line + 1, p.character⟩
      else if p.line = 0 then ⟨0, p.character + 1⟩
      else p

/-- Modelled from the spec: the character offset of a line/character
position, scanning the text for line breaks; `none` when the position does
not exist in the text (line past the end, or character past the line
break). -/
def offsetAt : List Char → Position → Option Nat
  | [], p => if p = ⟨0, 0⟩ then some 0 else none
  | _ :: _, ⟨0, 0⟩ => some 0
  | c :: cs, ⟨0, k + 1⟩ =>
      if c = '\n' then none else (offsetAt cs ⟨0, k⟩).map (· + 1)
  | c :: cs, ⟨l + 1, k⟩ =>
      if c = '\n' then (offsetAt cs ⟨l, k⟩).map (· + 1)
      else (offsetAt cs ⟨l + 1, k⟩).map (· + 1)

/-- Modelled from the spec: the first index of the offset-correspondence
table carrying the given host offset, `none` when the host offset is not
mapped. -/
def findMappedIndex (hostOffset : Nat) : List (Option Nat) → Option Nat
  | [] => none
  | entry :: rest =>
      if entry = some hostOffset then some 0
      else (findMappedIndex hostOffset rest).map (· + 1)

/-- Modelled from the spec: `getEmbeddedLanguageDocPosition` of `utils.ts`
(not included in the sources) — translate a host position to the virtual
document by finding, in the offset-correspondence table, the virtual offset
mapped to the host position's character offset, then re-deriving
line/character within the virtual text; fails when the position lies outside
any mapped span. -/
def getEmbeddedLanguageDocPosition (hostText virtualText : List Char)
    (characterIndexes : List (Option Nat)) (hostPosition : Position) :
    Option Position := do
  let hostOffset ← offsetAt hostText hostPosition
  let virtualOffset ← findMappedIndex hostOffset characterIndexes
  pure (positionAt virtualText virtualOffset)

/-- Modelled from the spec: the position half of `getOriginalDocRange` of
`utils.ts` (not included in the sources) — translate a virtual-document
position back to the host document through the offset-correspondence table;
fails when the virtual offset falls in synthetic text with no host
counterpart. -/
def getOriginalDocPosition (hostText virtualText : List Char)
    (characterIndexes : List (Option Nat)) (virtualPosition : Position) :
    Option Position := do
  let virtualOffset ← offsetAt virtualText virtualPosition
  let hostOffset ← (characterIndexes.get? virtualOffset).join
  pure (positionAt hostText hostOffset)

end Client

namespace Server

/-- A server-side LSP position; the wire values are plain numbers, so the
coordinates are modelled as integers and the clamping in the handler is
meaningful. -/
structure Position where
  line : Int
  character : Int
deriving DecidableEq

/-- A server-side LSP range; the source field `end` is named `stop`. -/
structure Range where
  start : Position
  stop : Position
deriving DecidableEq

/-- A server-side LSP `Location`. -/
structure Location where
  uri : String
  range : Range
deriving DecidableEq

/-- The LSP symbol kinds the handler distinguishes. -/
inductive SymbolKind where
  | variable_
  | function_
  | other
deriving DecidableEq

/-- A scanned symbol: name, kind and declaring location
(`BitbakeSymbolInformation`, reduced to the fields the handler reads). -/
structure BitbakeSymbolInformation where
  name : String
  kind : SymbolKind
  location : Location
deriving DecidableEq

/-- A parsed path (`path.ParsedPath`, reduced to the fields the handler
reads). -/
structure PathInfo where
  dir : String
  base : String
  name : String
  ext : String
deriving DecidableEq

/-- An element found by the project scanner: a name and an optional path. -/
structure ElementInfo where
  name : String
  path : Option PathInfo
deriving DecidableEq

/-- The part of the last scan result the handler reads. -/
structure ScanResult where
  symbols : List BitbakeSymbolInformation
  includeHistory : List PathInfo
deriving DecidableEq

/-- The directive keywords (`DirectiveStatementKeyword`). -/
inductive DirectiveStatementKeyword where
  | inheritKw
  | requireKw
  | includeKw
deriving DecidableEq

/-- The project scanner state the handler reads
(`bitBakeProjectScannerClient.bitbakeScanResult`; source field names
`_classes` and `_confFiles`). -/
structure BitbakeScanResult where
  classes : List ElementInfo
  confFiles : List ElementInfo

/-- An LSP text-document position parameter pair. -/
structure TextDocumentPositionParams where
  uri : String
  position : Position

/-- The analyzer collaborator, as the read-only query interface the handler
consumes. -/
structure Analyzer where
  wordAtPointFromTextPosition : TextDocumentPositionParams → Option String
  getDocumentTexts : String → Option (List String)
  getLastScanResult : String → Option ScanResult
  getDirectiveStatementKeywordByNodeType :
    TextDocumentPositionParams → Option DirectiveStatementKeyword
  getDirectivePathForPosition : TextDocumentPositionParams → Option String
  resolveSymbol : String → List BitbakeSymbolInformation → String
  findExactSymbolAtPoint : String → Position → String → Option BitbakeSymbolInformation
  matchSymbol : BitbakeSymbolInformation → List BitbakeSymbolInformation →
    Option BitbakeSymbolInformation
  extractModificationHistoryFromComments : BitbakeSymbolInformation → List Location
  isStringContent : String → Int → Int → Bool
  getSymbolsInStringContent : String → Int → Int → List BitbakeSymbolInformation
  isOverride : String → Int → Int → Bool
  getGlobalDeclarationSymbols : String → List BitbakeSymbolInformation
  getIncludeUrisForUri : String → Option (List String)
  findFilesInProjectScanner : String → List ElementInfo

/-- Every collaborator `onDefinitionHandler` consults: the analyzer, the
project scanner state, the connection request for container paths
(`connection?.sendRequest('bitbake/resolveContainerPath', ...)`), recipe
name extraction and the platform `encodeURI`. -/
structure Env where
  analyzer : Analyzer
  bitbakeScanResult : BitbakeScanResult
  resolveContainerPath : String → Option String
  extractRecipeName : String → String
  encodeURI : String → String

/-- The clamped position the handler looks the word up at:
`{ line, character: Math.max(position.character - 1, 0) }`. -/
def wordPositionOf (position : Position) : Position :=
  ⟨position.line, max (position.character - 1) 0⟩

/-- Embeds `createDefinitionLocationForPathInfo`. -/
def createDefinitionLocationForPathInfo (env : Env) (path : PathInfo) : Location :=
  { uri := env.encodeURI ("file://" ++ path.dir ++ "/" ++ path.base)
    range := ⟨⟨0, 0⟩, ⟨0, 0⟩⟩ }

/-- Embeds `getDefinitionForDirectives`. -/
def getDefinitionForDirectives (env : Env)
    (directiveStatementKeyword : DirectiveStatementKeyword)
    (directivePath : String) : List Location :=
  let elementInfos : List ElementInfo :=
    match directiveStatementKeyword with
    | .inheritKw =>
        env.bitbakeScanResult.classes.filter (fun bbclass => bbclass.name == directivePath)
    | .requireKw | .includeKw => env.analyzer.findFilesInProjectScanner directivePath
  elementInfos.filterMap
    (fun elementInfo => elementInfo.path.map (createDefinitionLocationForPathInfo env))

/-- Embeds `getAllDefinitionSymbolsForSymbolAtPoint`. -/
def getAllDefinitionSymbolsForSymbolAtPoint (env : Env) (uri : String) (word : String)
    (symbolAtPoint : Option BitbakeSymbolInformation) : List BitbakeSymbolInformation :=
  match symbolAtPoint with
  | none => []
  | some sym =>
      let allDeclarationSymbols := env.analyzer.getGlobalDeclarationSymbols uri
        ++ ((env.analyzer.getIncludeUrisForUri uri).getD []).flatMap
            env.analyzer.getGlobalDeclarationSymbols
      allDeclarationSymbols.filter
        (fun symbol => symbol.name == word && symbol.kind == sym.kind)

/-- The variable/function branch of the handler: declaration symbols plus
the modification history of the matched scan symbol, each history location
resolved through the connection when possible. -/
def variableDefinitions (env : Env) (uri : String) (word : String)
    (symbolAtPoint : Option BitbakeSymbolInformation)
    (lastScanResult : Option ScanResult) : List Location :=
  let base := (getAllDefinitionSymbolsForSymbolAtPoint env uri word symbolAtPoint).map
    (fun symbol => { uri := symbol.location.uri, range := symbol.location.range })
  match lastScanResult, symbolAtPoint with
  | some scan, some sym =>
      match env.analyzer.matchSymbol sym scan.symbols with
      | some foundSymbol =>
          base ++ (env.analyzer.extractModificationHistoryFromComments foundSymbol).map
            (fun location =>
              { uri := (env.resolveContainerPath
                  (location.uri.replace "file://" "")).getD location.uri
                range := location.range })
      | none => base
  | _, _ => base

/-- Embeds `onDefinitionHandler` of `definition.ts`.  The declared return
type of the source is `Promise<Location[] | null>`, embedded as
`Option (List Location)` with `none` standing for `null`. -/
def onDefinitionHandler (env : Env) (p : TextDocumentPositionParams) :
    Option (List Location) :=
  let wordPosition := wordPositionOf p.position
  let word := env.analyzer.wordAtPointFromTextPosition { p with position := wordPosition }
  match env.analyzer.getDocumentTexts p.uri with
  | none => some []
  | some _ =>
      let lastScanResult := env.analyzer.getLastScanResult (env.extractRecipeName p.uri)
      match env.analyzer.getDirectiveStatementKeywordByNodeType p,
          env.analyzer.getDirectivePathForPosition p with
      | some directiveStatementKeyword, some directivePath =>
          let resolvedDirectivePath :=
            match lastScanResult with
            | some scan => env.analyzer.resolveSymbol directivePath scan.symbols
            | none => directivePath
          some (getDefinitionForDirectives env directiveStatementKeyword resolvedDirectivePath)
      | _, _ =>
          match word with
          | none => some []
          | some w =>
              let symbolAtPoint := env.analyzer.findExactSymbolAtPoint p.uri p.position w
              if symbolAtPoint.map (fun s => s.kind) = some .variable_
                  ∨ symbolAtPoint.map (fun s => s.kind) = some .function_ then
                some (variableDefinitions env p.uri w symbolAtPoint lastScanResult)
              else if env.analyzer.isStringContent p.uri p.position.line
                  p.position.character then
                some ((env.analyzer.getSymbolsInStringContent p.uri p.position.line
                    p.position.character).map
                  (fun symbol => { uri := symbol.location.uri, range := ⟨⟨0, 0⟩, ⟨0, 0⟩⟩ }))
              else if env.analyzer.isOverride p.uri p.position.line
                  p.position.character then
                let fromScan : Option Location :=
                  match lastScanResult with
                  | some scan =>
                      (scan.includeHistory.find?
                        (fun includePath =>
                          includePath.ext == ".conf" && includePath.name == w)).map
                        (createDefinitionLocationForPathInfo env)
                  | none => none
                match fromScan with
                | some location => some [location]
                | none =>
                    match env.bitbakeScanResult.confFiles.find?
                        (fun confFile => confFile.name == w) with
                    | some overrideFile =>
                        match overrideFile.path with
                        | some pa => some [createDefinitionLocationForPathInfo env pa]
                        | none => some []
                    | none => some []
              else some []

end Server

namespace Client

/-- When every range translation fails, `ajustDefinitionRange` leaves the
entry untouched. -/
theorem ajustDefinitionRange_of_toHost_none (toHost : RangeToHost)
    (h : ∀ r, toHost r = none) (d : Definition) :
    ajustDefinitionRange toHost d = d := by
  cases d with
  | loc uri range => simp [ajustDefinitionRange, h]
  | link o targetUri targetRange targetSelectionRange =>
      cases targetSelectionRange <;> simp [ajustDefinitionRange, h]

/-- Shape coercion yields the shape of the entry being replaced. -/
theorem isLocationShape_convertToSameDefinitionType (a b : Definition) :
    (convertToSameDefinitionType a b).isLocationShape = a.isLocationShape := by
  cases a <;> cases b <;> rfl

/-- Adjusting ranges does not change the entry's shape. -/
theorem isLocationShape_ajustDefinitionRange (toHost : RangeToHost) (d : Definition) :
    (ajustDefinitionRange toHost d).isLocationShape = d.isLocationShape := by
  cases d with
  | loc uri range =>
      cases h : toHost range <;>
        simp [ajustDefinitionRange, h, Definition.isLocationShape]
  | link o targetUri targetRange targetSelectionRange =>
      cases targetSelectionRange with
      | none => rfl
      | some sr =>
          cases h : toHost sr <;>
            simp [ajustDefinitionRange, h, Definition.isLocationShape]

/-- Rewriting the URI does not change the entry's shape. -/
theorem isLocationShape_changeDefinitionUri (d : Definition) (uri : String) :
    (changeDefinitionUri d uri).isLocationShape = d.isLocationShape := by
  cases d <;> rfl

/-- A singleton input whose only entry suspends is processed entirely by its
own callback, whatever that callback pushes. -/
theorem processDefinitions_singleton_async (provider : DefinitionProvider)
    (toHost : RangeToHost) (originalUri : String) (infos : EmbeddedLanguageDocInfos)
    (d : Definition) (h : isAsyncEntry infos d = true) :
    processDefinitions provider toHost originalUri infos [d] [0]
      = processOneDefinition provider toHost originalUri infos d := by
  simp [processDefinitions, applySched, List.filter, h]

/-- Reading every index of a list back in order reproduces the list. -/
theorem filterMap_get?_range {α : Type} (xs : List α) :
    (List.range xs.length).filterMap (fun i => xs.get? i) = xs := by
  induction xs with
  | nil => simp
  | cons x xs ih =>
      rw [List.length_cons, List.range_succ_eq_map, List.filterMap_cons]
      simp only [List.get?_cons_zero, List.filterMap_map]
      have : (fun i => (x :: xs).get? i) ∘ Nat.succ = fun i => xs.get? i := by
        funext i; rfl
      rw [this, ih]

end Client

namespace Client

/-- The de-duplicating merge keeps, for every comparison value not already
seen, exactly the first element carrying it, and drops every element whose
value was already seen. -/
theorem mergeDistinctAux_filter {α β : Type} (f : α → β) [DecidableEq β] (b : β)
    (seen : List β) (xs : List α) :
    (mergeDistinctAux f seen xs).filter (fun a => f a == b)
      = if b ∈ seen then [] else (xs.filter (fun a => f a == b)).take 1 := by
  induction xs generalizing seen with
  | nil => simp [mergeDistinctAux]
  | cons x xs ih =>
      by_cases hx : f x ∈ seen
      · rw [mergeDistinctAux, if_pos hx, ih]
        by_cases hb : b ∈ seen
        · simp [hb]
        · have hfx : (f x == b) = false := by
            by_cases h : f x = b
            · exact absurd (h ▸ hx) hb
            · simp [h]
          simp [hb, List.filter_cons, hfx]
      · rw [mergeDistinctAux, if_neg hx]
        by_cases hfb : f x = b
        · subst hfb
          rw [List.filter_cons]
          simp only [beq_self_eq_true, if_pos]
          rw [ih (f x :: seen)]
          simp [hx, List.filter_cons]
        · have hfx : (f x == b) = false := by simp [hfb]
          rw [List.filter_cons]
          simp only [hfx, Bool.false_eq_true, if_neg, ite_false]
          rw [ih (f x :: seen)]
          by_cases hb : b ∈ seen
          · have : b ∈ f x :: seen := List.mem_cons_of_mem _ hb
            simp [hb, this]
          · have hbf : ¬b ∈ f x :: seen := by
              intro hmem
              rcases List.mem_cons.mp hmem with h | h
              · exact hfb h.symm
              · exact hb h
            simp [hb, hbf, List.filter_cons, hfx]

end Client

namespace Client

/-- The position of a zero offset is the document start. -/
theorem positionAt_zero (t : List Char) : positionAt t 0 = ⟨0, 0⟩ := by
  cases t <;> rfl

/-- Unfolding equation of `offsetAt` on the empty text. -/
theorem offsetAt_nil (p : Position) :
    offsetAt [] p = if p = ⟨0, 0⟩ then some 0 else none := rfl

/-- Unfolding equation of `offsetAt` at the document start. -/
theorem offsetAt_cons_zero (c : Char) (cs : List Char) :
    offsetAt (c :: cs) ⟨0, 0⟩ = some 0 := rfl

/-- Unfolding equation of `offsetAt` on the first line. -/
theorem offsetAt_cons_line0 (c : Char) (cs : List Char) (k : Nat) :
    offsetAt (c :: cs) ⟨0, k + 1⟩
      = if c = '\n' then none else (offsetAt cs ⟨0, k⟩).map (· + 1) := rfl

/-- Unfolding equation of `offsetAt` on a later line. -/
theorem offsetAt_cons_succ (c : Char) (cs : List Char) (l k : Nat) :
    offsetAt (c :: cs) ⟨l + 1, k⟩
      = if c = '\n' then (offsetAt cs ⟨l, k⟩).map (· + 1)
        else (offsetAt cs ⟨l + 1, k⟩).map (· + 1) := rfl

/-- Unfolding equation of `positionAt` past the first character. -/
theorem positionAt_cons_succ (c : Char) (cs : List Char) (o : Nat) :
    positionAt (c :: cs) (o + 1)
      = if c = '\n' then ⟨(positionAt cs o).line + 1, (positionAt cs o).character⟩
        else if (positionAt cs o).line = 0 then ⟨0, (positionAt cs o).character + 1⟩
        else positionAt cs o := rfl

/-- Deriving a position from an offset and converting it back recovers the
offset: `offsetAt` inverts `positionAt` on offsets inside the text. -/
theorem offsetAt_positionAt (t : List Char) (o : Nat) (h : o ≤ t.length) :
    offsetAt t (positionAt t o) = some o := by
  induction t generalizing o with
  | nil =>
      have : o = 0 := Nat.le_zero.mp h
      subst this
      rfl
  | cons c cs ih =>
      cases o with
      | zero => rfl
      | succ o =>
          have h' : o ≤ cs.length := Nat.succ_le_succ_iff.mp h
          have ihh := ih o h'
          rcases hp : positionAt cs o with ⟨pl, pk⟩
          rw [hp] at ihh
          rw [positionAt_cons_succ, hp]
          by_cases hc : c = '\n'
          · rw [if_pos hc]
            simp only
            rw [offsetAt_cons_succ, if_pos hc, ihh]
            rfl
          · rw [if_neg hc]
            simp only
            by_cases hl : pl = 0
            · subst hl
              rw [if_pos rfl, offsetAt_cons_line0, if_neg hc, ihh]
              rfl
            · obtain ⟨l, rfl⟩ := Nat.exists_eq_succ_of_ne_zero hl
              rw [if_neg (Nat.succ_ne_zero l), offsetAt_cons_succ, if_neg hc, ihh]
              rfl

/-- Converting a position to its offset and re-deriving the position
recovers it: `positionAt` inverts `offsetAt` wherever the latter
succeeds. -/
theorem positionAt_offsetAt (t : List Char) (p : Position) (o : Nat)
    (h : offsetAt t p = some o) : positionAt t o = p := by
  induction t generalizing p o with
  | nil =>
      rw [offsetAt_nil] at h
      by_cases hp : p = (⟨0, 0⟩ : Position)
      · rw [if_pos hp] at h
        obtain rfl : (0 : Nat) = o := Option.some.inj h
        rw [positionAt_zero, hp]
      · rw [if_neg hp] at h
        exact absurd h (by simp)
  | cons c cs ih =>
      rcases p with ⟨l, k⟩
      match l, k with
      | 0, 0 =>
          obtain rfl : (0 : Nat) = o := Option.some.inj h
          exact positionAt_zero _
      | 0, k + 1 =>
          rw [offsetAt_cons_line0] at h
          by_cases hc : c = '\n'
          · rw [if_pos hc] at h
            exact absurd h (by simp)
          · rw [if_neg hc] at h
            cases ho' : offsetAt cs ⟨0, k⟩ with
            | none => rw [ho'] at h; exact absurd h (by simp)
            | some o' =>
                rw [ho'] at h
                obtain rfl : o' + 1 = o := Option.some.inj h
                have hrec := ih _ _ ho'
                rw [positionAt_cons_succ, hrec, if_neg hc]
                rfl
      | l + 1, k =>
          rw [offsetAt_cons_succ] at h
          by_cases hc : c = '\n'
          · rw [if_pos hc] at h
            cases ho' : offsetAt cs ⟨l, k⟩ with
            | none => rw [ho'] at h; exact absurd h (by simp)
            | some o' =>
                rw [ho'] at h
                obtain rfl : o' + 1 = o := Option.some.inj h
                have hrec := ih _ _ ho'
                rw [positionAt_cons_succ, hrec, if_pos hc]
          · rw [if_neg hc] at h
            cases ho' : offsetAt cs ⟨l + 1, k⟩ with
            | none => rw [ho'] at h; exact absurd h (by simp)
            | some o' =>
                rw [ho'] at h
                obtain rfl : o' + 1 = o := Option.some.inj h
                have hrec := ih _ _ ho'
                rw [positionAt_cons_succ, hrec, if_neg hc,
                  if_neg (Nat.succ_ne_zero l)]

/-- A successful mapped-index search returns an index inside the table whose
entry is exactly the searched host offset. -/
theorem findMappedIndex_spec (hostOffset : Nat) (table : List (Option Nat))
    (i : Nat) (h : findMappedIndex hostOffset table = some i) :
    i < table.length ∧ table.get? i = some (some hostOffset) := by
  induction table generalizing i with
  | nil => exact absurd h (by simp [findMappedIndex])
  | cons entry rest ih =>
      by_cases he : entry = some hostOffset
      · rw [findMappedIndex, if_pos he] at h
        obtain rfl : (0 : Nat) = i := Option.some.inj h
        exact ⟨Nat.succ_pos _, by rw [List.get?_cons_zero, he]⟩
      · rw [findMappedIndex, if_neg he] at h
        cases hj : findMappedIndex hostOffset rest with
        | none => rw [hj] at h; exact absurd h (by simp)
        | some j =>
            rw [hj] at h
            obtain rfl : j + 1 = i := Option.some.inj h
            obtain ⟨hlt, hget⟩ := ih j hj
            exact ⟨Nat.succ_lt_succ hlt, by rw [List.get?_cons_succ]; exact hget⟩

end Client

namespace Client

/-- The identity schedule — completion in input order — reproduces the
parts unchanged. -/
theorem applySched_range (xs : List (List Definition)) :
    applySched (List.range xs.length) xs = xs :=
  filterMap_get?_range xs

end Client

/-- C1, counterexample: a definition entry on the virtual document whose
range fails `toHost` translation is NOT dropped — `processDefinitions`
returns it with the URI rewritten to the host document and the range left
untranslated, so the result list keeps its length instead of shrinking by
one. -/
theorem claimC1_counterexample :
    Client.processDefinitions (fun _ _ => []) (fun _ => none) "host"
        ⟨"virt", "python", []⟩
        [Client.Definition.loc "virt" (Client.Range.mk4 0 0 0 5)] [0]
      = [Client.Definition.loc "host" (Client.Range.mk4 0 0 0 5)] ∧
    [Client.Definition.loc "host" (Client.Range.mk4 0 0 0 5)]
      ≠ ([] : List Client.Definition) := by
  constructor
  · decide
  · decide

/-- C1, amended: for a definition entry whose target URI is the virtual
document, which no redirection rule captures, and whose ranges all fail
`toHost` translation, the Definition Redirector keeps the entry in the
result (the list length is unchanged): only its URI is rewritten to the
host document while the ranges stay untranslated. -/
theorem claimC1_theorem (provider : Client.DefinitionProvider)
    (toHost : Client.RangeToHost) (originalUri : String)
    (infos : Client.EmbeddedLanguageDocInfos) (d : Client.Definition)
    (hUri : Client.checkIsDefinitionUriEqual d infos.uri = true)
    (hFail : ∀ r, toHost r = none)
    (hNoRedirect : infos.language = "python" →
      Client.checkIsDefinitionRangeEqual d Client.dRange = false ∧
      Client.checkIsDefinitionRangeEqual d Client.eRange = false) :
    Client.processDefinitions provider toHost originalUri infos [d] [0]
      = [Client.changeDefinitionUri d originalUri] := by
  by_cases hl : infos.language = "python"
  · have hAsync : Client.isAsyncEntry infos d = true := by
      simp [Client.isAsyncEntry, hUri, hl]
    rw [Client.processDefinitions_singleton_async _ _ _ _ _ hAsync]
    obtain ⟨hd, he⟩ := hNoRedirect hl
    simp [Client.processOneDefinition, hUri, hl, Client.getDefinitionOfD,
      Client.getDefinitionOfE, Client.redirectDefinition, hd, he,
      Client.ajustDefinitionRange_of_toHost_none toHost hFail]
  · have hAsync : Client.isAsyncEntry infos d = false := by
      simp [Client.isAsyncEntry, beq_iff_eq, hl]
    simp [Client.processDefinitions, Client.applySched, hAsync,
      Client.processOneDefinition, hUri, beq_iff_eq, hl,
      Client.ajustDefinitionRange_of_toHost_none toHost hFail]

/-- C1, witness: the amended statement evaluated on a concrete LocationLink
entry whose translations all fail. -/
theorem claimC1_witness :
    Client.processDefinitions (fun _ _ => []) (fun _ => none) "orig"
        ⟨"vdoc", "python", []⟩
        [Client.Definition.link none "vdoc" (Client.Range.mk4 1 0 1 2)
          (some (Client.Range.mk4 1 1 1 2))] [0]
      = [Client.Definition.link none "orig" (Client.Range.mk4 1 0 1 2)
          (some (Client.Range.mk4 1 1 1 2))] :=
  claimC1_theorem (fun _ _ => []) (fun _ => none) "orig"
    ⟨"vdoc", "python", []⟩ _ (by decide) (fun _ => rfl) (by decide)

/-- C3: whenever the host-language definition provider yields a non-empty
result (a non-empty array or a single location), the middleware returns it
verbatim and the embedded definition provider is never invoked. -/
theorem claimC3_theorem (env : Client.DefinitionEnv)
    (nextResult : Client.NextDefinitionResult)
    (h : Client.isNonEmptyHostResult nextResult = true) :
    Client.middlewareProvideDefinition env nextResult = (nextResult, false) := by
  cases nextResult with
  | undef => simp [Client.isNonEmptyHostResult] at h
  | nullv => simp [Client.isNonEmptyHostResult] at h
  | single d => rfl
  | arr ds =>
      have hne : ds.isEmpty = false := by
        simp only [Client.isNonEmptyHostResult, Bool.not_eq_true'] at h
        exact h
      simp [Client.middlewareProvideDefinition, Client.isReturnedVerbatim, hne]

/-- C3, witness: the theorem evaluated on a concrete non-empty host
result. -/
theorem claimC3_witness :
    Client.isNonEmptyHostResult
        (Client.NextDefinitionResult.arr
          [Client.Definition.loc "x" (Client.Range.mk4 0 0 0 1)]) = true ∧
    Client.middlewareProvideDefinition
        ⟨some "python", some ⟨"v", "python", []⟩, ⟨0, 0⟩, fun _ _ => [],
          fun _ => none, "h", []⟩
        (Client.NextDefinitionResult.arr
          [Client.Definition.loc "x" (Client.Range.mk4 0 0 0 1)])
      = (Client.NextDefinitionResult.arr
          [Client.Definition.loc "x" (Client.Range.mk4 0 0 0 1)], false) :=
  ⟨by decide, claimC3_theorem _ _ (by decide)⟩

/-- C5, counterexample: when the Locator reports an embedded kind but the
Registry yields no embedded-document infos, the completion middleware
returns `undefined` (`none`), not the host result, even when the host result
is non-empty. -/
theorem claimC5_counterexample :
    Client.middlewareProvideCompletion
        ⟨some "python", none, [], fun _ => none⟩
        (some [⟨"foo", none⟩])
      = none ∧
    (none : Option (List Client.CompletionItem)) ≠ some [⟨"foo", none⟩] := by
  constructor
  · rfl
  · decide

/-- C5, amended: when the Locator reports no embedded kind the completion
middleware returns the host result (defaulted from `?? []`) unchanged; but
when a kind is found and the Registry yields no infos, the middleware
returns `undefined` instead of the host result. -/
theorem claimC5_theorem (env : Client.CompletionEnv)
    (nextRaw : Option (List Client.CompletionItem)) :
    (env.embeddedLanguageType = none →
      Client.middlewareProvideCompletion env nextRaw = some (nextRaw.getD [])) ∧
    (env.embeddedLanguageType ≠ none → env.infos = none →
      Client.middlewareProvideCompletion env nextRaw = none) := by
  constructor
  · intro h
    simp [Client.middlewareProvideCompletion, h]
  · intro h1 h2
    cases henv : env.embeddedLanguageType with
    | none => exact absurd henv h1
    | some t => simp [Client.middlewareProvideCompletion, henv, h2]

/-- C5, witness: both halves of the amended statement evaluated on concrete
environments. -/
theorem claimC5_witness :
    Client.middlewareProvideCompletion
        ⟨none, none, [], fun _ => none⟩ (some [⟨"foo", none⟩])
      = some [⟨"foo", none⟩] ∧
    Client.middlewareProvideCompletion
        ⟨some "python", none, [], fun _ => none⟩ (some [⟨"foo", none⟩])
      = none :=
  ⟨(claimC5_theorem ⟨none, none, [], fun _ => none⟩ (some [⟨"foo", none⟩])).1 rfl,
    (claimC5_theorem ⟨some "python", none, [], fun _ => none⟩
      (some [⟨"foo", none⟩])).2 (by simp) rfl⟩

/-- C8: evaluating `ajustDefinitionRange` on a LocationLink whose
`targetRange` and `targetSelectionRange` translate to two different host
ranges shows the bug: the adjusted entry's `targetSelectionRange` is the
translation of `targetRange` (the source assigns the variable
`newTargetRange` instead of the computed `newTargetSelectionRange`), not the
translation of its own original `targetSelectionRange`. -/
theorem claimC8_theorem :
    Client.ajustDefinitionRange
        (fun r =>
          if r = Client.Range.mk4 0 0 0 1 then some (Client.Range.mk4 5 0 5 1)
          else if r = Client.Range.mk4 0 2 0 3 then some (Client.Range.mk4 6 0 6 1)
          else none)
        (Client.Definition.link none "virt" (Client.Range.mk4 0 0 0 1)
          (some (Client.Range.mk4 0 2 0 3)))
      = Client.Definition.link none "virt" (Client.Range.mk4 5 0 5 1)
          (some (Client.Range.mk4 5 0 5 1)) ∧
    (Client.Range.mk4 5 0 5 1) ≠ (Client.Range.mk4 6 0 6 1) := by
  constructor
  · rfl
  · decide

/-- C4, counterexample: an embedded completion item carrying an
insert/replace pair whose translations fail is returned in the merged list
with its original virtual-space pair still attached — the range is not
dropped, so a stale virtual-space range does reach the host. -/
theorem claimC4_counterexample :
    Client.middlewareProvideCompletion
        ⟨some "python", some ⟨"virt", "python", []⟩,
          [⟨"x", some (Client.CompletionItemRange.pair
            (Client.Range.mk4 0 0 0 1) (Client.Range.mk4 0 0 0 2))⟩],
          fun _ => none⟩
        (some [])
      = some [⟨"x", some (Client.CompletionItemRange.pair
          (Client.Range.mk4 0 0 0 1) (Client.Range.mk4 0 0 0 2))⟩] ∧
    (Client.CompletionItem.mk "x" (some (Client.CompletionItemRange.pair
        (Client.Range.mk4 0 0 0 1) (Client.Range.mk4 0 0 0 2)))).range
      ≠ none := by
  constructor
  · rfl
  · decide

/-- C4, amended: a single replacement range is replaced by its translation
(and hence erased when the translation fails); an insert/replace pair is
replaced when both halves translate; but when either half of a pair fails
the item is left entirely unchanged, keeping its original virtual-space
pair instead of dropping it. -/
theorem claimC4_theorem (toHost : Client.RangeToHost) (item : Client.CompletionItem) :
    (∀ r, item.range = some (Client.CompletionItemRange.single r) →
      Client.adjustCompletionItem toHost item
        = { item with range := (toHost r).map Client.CompletionItemRange.single }) ∧
    (∀ i r hi hr, item.range = some (Client.CompletionItemRange.pair i r) →
      toHost i = some hi → toHost r = some hr →
      Client.adjustCompletionItem toHost item
        = { item with range := some (Client.CompletionItemRange.pair hi hr) }) ∧
    (∀ i r, item.range = some (Client.CompletionItemRange.pair i r) →
      (toHost i = none ∨ toHost r = none) →
      Client.adjustCompletionItem toHost item = item) := by
  refine ⟨?_, ?_, ?_⟩
  · intro r hr
    simp [Client.adjustCompletionItem, hr]
  · intro i r hi hr hrange hti htr
    simp [Client.adjustCompletionItem, hrange, hti, htr]
  · intro i r hrange hfail
    rcases hfail with hf | hf
    · simp [Client.adjustCompletionItem, hrange, hf]
    · cases hti : toHost i with
      | none => simp [Client.adjustCompletionItem, hrange, hti]
      | some hi => simp [Client.adjustCompletionItem, hrange, hti, hf]

/-- C4, witness: the three cases of the amended statement evaluated on
concrete items and a concrete translator. -/
theorem claimC4_witness :
    Client.adjustCompletionItem
        (fun r => if r = Client.Range.mk4 0 0 0 1 then some (Client.Range.mk4 2 0 2 1) else none)
        ⟨"a", some (Client.CompletionItemRange.single (Client.Range.mk4 0 0 0 1))⟩
      = ⟨"a", some (Client.CompletionItemRange.single (Client.Range.mk4 2 0 2 1))⟩ ∧
    Client.adjustCompletionItem
        (fun r => if r = Client.Range.mk4 0 0 0 1 then some (Client.Range.mk4 2 0 2 1) else none)
        ⟨"b", some (Client.CompletionItemRange.pair
          (Client.Range.mk4 0 0 0 1) (Client.Range.mk4 0 0 0 1))⟩
      = ⟨"b", some (Client.CompletionItemRange.pair
          (Client.Range.mk4 2 0 2 1) (Client.Range.mk4 2 0 2 1))⟩ ∧
    Client.adjustCompletionItem
        (fun r => if r = Client.Range.mk4 0 0 0 1 then some (Client.Range.mk4 2 0 2 1) else none)
        ⟨"c", some (Client.CompletionItemRange.pair
          (Client.Range.mk4 0 0 0 1) (Client.Range.mk4 0 9 0 9))⟩
      = ⟨"c", some (Client.CompletionItemRange.pair
          (Client.Range.mk4 0 0 0 1) (Client.Range.mk4 0 9 0 9))⟩ :=
  ⟨((claimC4_theorem _ _).1 _ rfl).trans (by decide),
    ((claimC4_theorem _ _).2.1 (Client.Range.mk4 0 0 0 1) (Client.Range.mk4 0 0 0 1)
      (Client.Range.mk4 2 0 2 1) (Client.Range.mk4 2 0 2 1)
      rfl (by decide) (by decide)).trans (by decide),
    ((claimC4_theorem _ _).2.2 _ _ rfl (Or.inr (by decide))).trans (by decide)⟩

/-- C2, counterexample: with host items `[{label := "foo"}]` (carrying a
range that identifies it) and embedded items `[{label := "foo"}, {label :=
"bar"}]`, the merged completion result keeps the EMBEDDED `"foo"`, not the
host's: the source passes the embedded (pulled) items first to the merge, so
embedded items win label ties and come first. -/
theorem claimC2_counterexample :
    Client.middlewareProvideCompletion
        ⟨some "python", some ⟨"virt", "python", []⟩,
          [⟨"foo", none⟩, ⟨"bar", none⟩], fun r => some r⟩
        (some [⟨"foo", some (Client.CompletionItemRange.single (Client.Range.mk4 0 0 0 1))⟩])
      = some [⟨"foo", none⟩, ⟨"bar", none⟩] ∧
    (Client.CompletionItem.mk "foo"
        (some (Client.CompletionItemRange.single (Client.Range.mk4 0 0 0 1))))
      ∉ [Client.CompletionItem.mk "foo" none, Client.CompletionItem.mk "bar" none] := by
  constructor
  · rfl
  · decide

/-- C2, amended: in the merging branch the middleware returns the
de-duplicated merge of the adjusted EMBEDDED items followed by the host
items (embedded first); for every label the surviving item is the first
item carrying that label in embedded-then-host order — so embedded items,
not host items, win label ties — and each label occurs at most once
(`take 1` of the matching items). -/
theorem claimC2_theorem (env : Client.CompletionEnv)
    (host : List Client.CompletionItem) (l : String) (t : String)
    (infos : Client.EmbeddedLanguageDocInfos)
    (hk : env.embeddedLanguageType = some t) (hi : env.infos = some infos) :
    Client.middlewareProvideCompletion env (some host)
      = some (Client.mergeArraysDistinctly (fun item => item.label)
          [env.pulledItems.map (Client.adjustCompletionItem env.toHost), host]) ∧
    (Client.mergeArraysDistinctly (fun item => item.label)
        [env.pulledItems.map (Client.adjustCompletionItem env.toHost), host]).filter
      (fun item => item.label == l)
      = ((env.pulledItems.map (Client.adjustCompletionItem env.toHost) ++ host).filter
          (fun item => item.label == l)).take 1 := by
  constructor
  · simp [Client.middlewareProvideCompletion, hk, hi]
  · rw [Client.mergeArraysDistinctly, Client.mergeDistinctAux_filter]
    simp

/-- C2, witness: the amended statement evaluated on the concrete example of
the claim; the embedded `"foo"` survives and the host's does not. -/
theorem claimC2_witness :
    Client.middlewareProvideCompletion
        ⟨some "python", some ⟨"virt", "python", []⟩,
          [⟨"foo", none⟩, ⟨"bar", none⟩], fun r => some r⟩
        (some [⟨"foo", some (Client.CompletionItemRange.single (Client.Range.mk4 0 0 0 1))⟩])
      = some [⟨"foo", none⟩, ⟨"bar", none⟩] ∧
    [Client.CompletionItem.mk "foo" none, Client.CompletionItem.mk "bar" none].filter
        (fun item => item.label == "foo")
      = [⟨"foo", none⟩] :=
  ⟨((claimC2_theorem
      ⟨some "python", some ⟨"virt", "python", []⟩,
        [⟨"foo", none⟩, ⟨"bar", none⟩], fun r => some r⟩
      [⟨"foo", some (Client.CompletionItemRange.single (Client.Range.mk4 0 0 0 1))⟩]
      "foo" "python" ⟨"virt", "python", []⟩ rfl rfl).1).trans (by decide),
    by decide⟩

/-- C7, counterexample: two embedded python entries redirected through
awaited provider queries are pushed in completion order, so two valid
completion schedules of the same input yield differently ordered results —
the output order is not independent of completion timing. -/
theorem claimC7_counterexample :
    Client.processDefinitions
        (fun _ p =>
          if p = Client.dataSmartPosition then
            [Client.Definition.loc "A" (Client.Range.mk4 0 0 0 0)]
          else if p = Client.eventPosition then
            [Client.Definition.loc "B" (Client.Range.mk4 0 0 0 0)]
          else [])
        (fun _ => none) "host" ⟨"virt", "python", []⟩
        [Client.Definition.loc "virt" Client.dRange,
          Client.Definition.loc "virt" Client.eRange] [0, 1]
      ≠ Client.processDefinitions
        (fun _ p =>
          if p = Client.dataSmartPosition then
            [Client.Definition.loc "A" (Client.Range.mk4 0 0 0 0)]
          else if p = Client.eventPosition then
            [Client.Definition.loc "B" (Client.Range.mk4 0 0 0 0)]
          else [])
        (fun _ => none) "host" ⟨"virt", "python", []⟩
        [Client.Definition.loc "virt" Client.dRange,
          Client.Definition.loc "virt" Client.eRange] [1, 0] ∧
    List.Perm [0, 1] (List.range (Client.asyncEntryCount ⟨"virt", "python", []⟩
      [Client.Definition.loc "virt" Client.dRange,
        Client.Definition.loc "virt" Client.eRange])) ∧
    List.Perm [1, 0] (List.range (Client.asyncEntryCount ⟨"virt", "python", []⟩
      [Client.Definition.loc "virt" Client.dRange,
        Client.Definition.loc "virt" Client.eRange])) := by
  refine ⟨by decide, by decide, by decide⟩

/-- C7, amended: for every valid completion schedule (a permutation of the
suspended entries) the result is a permutation of the canonical
input-order result — the multiset of returned entries is independent of
completion timing, and entries that never await keep their input-order
prefix — but the order among awaited entries follows completion order, so
the full output order is not deterministic. -/
theorem claimC7_theorem (provider : Client.DefinitionProvider)
    (toHost : Client.RangeToHost) (originalUri : String)
    (infos : Client.EmbeddedLanguageDocInfos)
    (definitions : List Client.Definition) (sched : List Nat)
    (h : sched.Perm (List.range (Client.asyncEntryCount infos definitions))) :
    (Client.processDefinitions provider toHost originalUri infos definitions
        sched).Perm
      (Client.processDefinitions provider toHost originalUri infos definitions
        (List.range (Client.asyncEntryCount infos definitions))) := by
  have hlen : Client.asyncEntryCount infos definitions
      = ((definitions.filter (Client.isAsyncEntry infos)).map
          (Client.processOneDefinition provider toHost originalUri infos)).length := by
    simp [Client.asyncEntryCount]
  rw [hlen] at h
  simp only [Client.processDefinitions, hlen]
  refine List.Perm.append_left _ ?_
  rw [Client.applySched_range]
  have h2 := h.filterMap
    (fun i => ((definitions.filter (Client.isAsyncEntry infos)).map
      (Client.processOneDefinition provider toHost originalUri infos)).get? i)
  rw [Client.filterMap_get?_range] at h2
  exact h2.flatten

/-- C7, witness: the amended statement evaluated on the concrete two-entry
input with the reversed schedule. -/
theorem claimC7_witness :
    List.Perm [1, 0] (List.range (Client.asyncEntryCount ⟨"virt", "python", []⟩
      [Client.Definition.loc "virt" Client.dRange,
        Client.Definition.loc "virt" Client.eRange])) ∧
    (Client.processDefinitions (fun _ _ => []) (fun _ => none) "host"
        ⟨"virt", "python", []⟩
        [Client.Definition.loc "virt" Client.dRange,
          Client.Definition.loc "virt" Client.eRange] [1, 0]).Perm
      (Client.processDefinitions (fun _ _ => []) (fun _ => none) "host"
        ⟨"virt", "python", []⟩
        [Client.Definition.loc "virt" Client.dRange,
          Client.Definition.loc "virt" Client.eRange]
        (List.range (Client.asyncEntryCount ⟨"virt", "python", []⟩
          [Client.Definition.loc "virt" Client.dRange,
            Client.Definition.loc "virt" Client.eRange]))) :=
  ⟨by decide, claimC7_theorem _ _ _ _ _ _ (by decide)⟩

/-- C6: an embedded python definition entry on the virtual document whose
range exactly equals a configured trigger range (`dRange` for `d`, `eRange`
for `e`) is replaced by the embedded provider's results at the configured
redirect position (`dataSmartPosition` resp. `eventPosition`), in a single
redirection hop, every redirected result being coerced to the shape of the
entry it replaces. -/
theorem claimC6_theorem (provider : Client.DefinitionProvider)
    (toHost : Client.RangeToHost) (originalUri : String)
    (infos : Client.EmbeddedLanguageDocInfos) (d : Client.Definition)
    (hUri : Client.checkIsDefinitionUriEqual d infos.uri = true)
    (hLang : infos.language = "python") :
    (Client.checkIsDefinitionRangeEqual d Client.dRange = true →
      Client.processDefinitions provider toHost originalUri infos [d] [0]
        = (provider (Client.getDefinitionUri d) Client.dataSmartPosition).map
            (Client.convertToSameDefinitionType d)) ∧
    (Client.checkIsDefinitionRangeEqual d Client.eRange = true →
      Client.processDefinitions provider toHost originalUri infos [d] [0]
        = (provider (Client.getDefinitionUri d) Client.eventPosition).map
            (Client.convertToSameDefinitionType d)) ∧
    (∀ x ∈ Client.processDefinitions provider toHost originalUri infos [d] [0],
      x.isLocationShape = d.isLocationShape) := by
  have hAsync : Client.isAsyncEntry infos d = true := by
    simp [Client.isAsyncEntry, hUri, hLang]
  rw [Client.processDefinitions_singleton_async _ _ _ _ _ hAsync]
  refine ⟨?_, ?_, ?_⟩
  · intro hd
    simp [Client.processOneDefinition, hUri, hLang, Client.getDefinitionOfD,
      Client.redirectDefinition, hd]
  · intro he
    have hd : Client.checkIsDefinitionRangeEqual d Client.dRange = false := by
      simp only [Client.checkIsDefinitionRangeEqual, beq_iff_eq] at he ⊢
      rw [he]
      decide
    simp [Client.processOneDefinition, hUri, hLang, Client.getDefinitionOfD,
      Client.getDefinitionOfE, Client.redirectDefinition, hd, he]
  · intro x hx
    by_cases hd : Client.checkIsDefinitionRangeEqual d Client.dRange = true
    · simp [Client.processOneDefinition, hUri, hLang, Client.getDefinitionOfD,
        Client.redirectDefinition, hd] at hx
      obtain ⟨y, hy, rfl⟩ := hx
      exact Client.isLocationShape_convertToSameDefinitionType d y
    · have hd' : Client.checkIsDefinitionRangeEqual d Client.dRange = false :=
        Bool.not_eq_true _ ▸ eq_false_of_ne_true hd
      by_cases he : Client.checkIsDefinitionRangeEqual d Client.eRange = true
      · simp [Client.processOneDefinition, hUri, hLang, Client.getDefinitionOfD,
          Client.getDefinitionOfE, Client.redirectDefinition, hd', he] at hx
        obtain ⟨y, hy, rfl⟩ := hx
        exact Client.isLocationShape_convertToSameDefinitionType d y
      · have he' : Client.checkIsDefinitionRangeEqual d Client.eRange = false :=
          eq_false_of_ne_true he
        simp [Client.processOneDefinition, hUri, hLang, Client.getDefinitionOfD,
          Client.getDefinitionOfE, Client.redirectDefinition, hd', he'] at hx
        rw [hx, Client.isLocationShape_ajustDefinitionRange,
          Client.isLocationShape_changeDefinitionUri]

/-- C6, witness: the redirection evaluated on a concrete entry sitting
exactly on `dRange`; the provider's LocationLink answer is coerced to the
Location shape of the replaced entry. -/
theorem claimC6_witness :
    Client.processDefinitions
        (fun _ p =>
          if p = Client.dataSmartPosition then
            [Client.Definition.link none "tgt" (Client.Range.mk4 7 0 7 3) none]
          else [])
        (fun _ => none) "host" ⟨"virt", "python", []⟩
        [Client.Definition.loc "virt" Client.dRange] [0]
      = [Client.Definition.loc "tgt" (Client.Range.mk4 7 0 7 3)] :=
  ((claimC6_theorem
      (fun _ p =>
        if p = Client.dataSmartPosition then
          [Client.Definition.link none "tgt" (Client.Range.mk4 7 0 7 3) none]
        else [])
      (fun _ => none) "host" ⟨"virt", "python", []⟩
      (Client.Definition.loc "virt" Client.dRange)
      (by decide) rfl).1 (by decide)).trans (by decide)

/-- C9: translating a host position into the virtual document with
`getEmbeddedLanguageDocPosition` and back with `getOriginalDocPosition`
recovers the original position whenever both translations succeed, given
the table invariant that the offset-correspondence table has one entry per
virtual-document character. -/
theorem claimC9_theorem (hostText virtualText : List Char)
    (characterIndexes : List (Option Nat)) (hostPosition vp hp : Client.Position)
    (hlen : characterIndexes.length = virtualText.length)
    (h1 : Client.getEmbeddedLanguageDocPosition hostText virtualText characterIndexes
        hostPosition = some vp)
    (h2 : Client.getOriginalDocPosition hostText virtualText characterIndexes vp
        = some hp) :
    hp = hostPosition := by
  have h1' : (Client.offsetAt hostText hostPosition).bind
      (fun hostOffset => (Client.findMappedIndex hostOffset characterIndexes).bind
        (fun virtualOffset => some (Client.positionAt virtualText virtualOffset)))
      = some vp := h1
  rcases Option.bind_eq_some.mp h1' with ⟨ho, hho, h1''⟩
  rcases Option.bind_eq_some.mp h1'' with ⟨i, hfind, hvp⟩
  obtain rfl : Client.positionAt virtualText i = vp := Option.some.inj hvp
  obtain ⟨hilt, hget⟩ := Client.findMappedIndex_spec ho characterIndexes i hfind
  have hile : i ≤ virtualText.length := Nat.le_of_lt (hlen ▸ hilt)
  have h2' : (Client.offsetAt virtualText (Client.positionAt virtualText i)).bind
      (fun virtualOffset => ((characterIndexes.get? virtualOffset).join).bind
        (fun hostOffset => some (Client.positionAt hostText hostOffset)))
      = some hp := h2
  rw [Client.offsetAt_positionAt virtualText i hile] at h2'
  rw [Option.some_bind, hget] at h2'
  simp only [Option.join, Option.some_bind] at h2'
  obtain rfl : Client.positionAt hostText ho = hp := Option.some.inj h2'
  exact Client.positionAt_offsetAt hostText hostPosition ho hho

/-- C9, witness: the round trip evaluated on a concrete two-character host
document whose second character is the single mapped virtual character. -/
theorem claimC9_witness :
    ([some 1] : List (Option Nat)).length = (['a', 'b'] : List Char).length - 1 ∧
    Client.getEmbeddedLanguageDocPosition ['a', 'b'] ['b'] [some 1] ⟨0, 1⟩
      = some ⟨0, 0⟩ ∧
    Client.getOriginalDocPosition ['a', 'b'] ['b'] [some 1] ⟨0, 0⟩
      = some ⟨0, 1⟩ ∧
    (⟨0, 1⟩ : Client.Position) = ⟨0, 1⟩ :=
  ⟨rfl, by decide, by decide,
    claimC9_theorem ['a', 'b'] ['b'] [some 1] ⟨0, 1⟩ ⟨0, 0⟩ ⟨0, 1⟩ rfl
      (by decide) (by decide)⟩

/-- C10: the server-side definition handler always returns an array, never
`null`: in particular the empty array when the document's text is unknown,
when neither a directive nor a word is found at the position, and when an
override resolves to no file; and the word-lookup position's character is
clamped to be non-negative for every input position. -/
theorem claimC10_theorem (env : Server.Env) (p : Server.TextDocumentPositionParams) :
    (Server.onDefinitionHandler env p).isSome = true ∧
    (env.analyzer.getDocumentTexts p.uri = none →
      Server.onDefinitionHandler env p = some []) ∧
    ((env.analyzer.getDirectiveStatementKeywordByNodeType p = none ∨
        env.analyzer.getDirectivePathForPosition p = none) →
      env.analyzer.wordAtPointFromTextPosition
          { p with position := Server.wordPositionOf p.position } = none →
      Server.onDefinitionHandler env p = some []) ∧
    (∀ w, (env.analyzer.getDirectiveStatementKeywordByNodeType p = none ∨
        env.analyzer.getDirectivePathForPosition p = none) →
      env.analyzer.wordAtPointFromTextPosition
          { p with position := Server.wordPositionOf p.position } = some w →
      (env.analyzer.findExactSymbolAtPoint p.uri p.position w).map
          (fun s => s.kind) = some Server.SymbolKind.other →
      env.analyzer.isStringContent p.uri p.position.line p.position.character = false →
      env.analyzer.getLastScanResult (env.extractRecipeName p.uri) = none →
      env.bitbakeScanResult.confFiles.find? (fun confFile => confFile.name == w)
        = none →
      Server.onDefinitionHandler env p = some []) ∧
    0 ≤ (Server.wordPositionOf p.position).character := by
  refine ⟨?_, ?_, ?_, ?_, le_max_right _ _⟩
  · simp only [Server.onDefinitionHandler]
    repeat' split
    all_goals simp
  · intro h
    simp [Server.onDefinitionHandler, h]
  · intro hdir hword
    cases hdt : env.analyzer.getDocumentTexts p.uri with
    | none => simp [Server.onDefinitionHandler, hdt]
    | some texts =>
        rcases hdir with h | h
        · simp [Server.onDefinitionHandler, hdt, h, hword]
        · cases hk : env.analyzer.getDirectiveStatementKeywordByNodeType p with
          | none => simp [Server.onDefinitionHandler, hdt, hk, hword]
          | some k => simp [Server.onDefinitionHandler, hdt, hk, h, hword]
  · intro w hdir hword hkind hstr hscan hconf
    cases hfs : env.analyzer.findExactSymbolAtPoint p.uri p.position w with
    | none =>
        rw [hfs] at hkind
        simp at hkind
    | some s =>
        rw [hfs] at hkind
        have hks : s.kind = Server.SymbolKind.other := by simpa using hkind
        cases hdt : env.analyzer.getDocumentTexts p.uri with
        | none => simp [Server.onDefinitionHandler, hdt]
        | some texts =>
            rcases hdir with h | h
            · simp [Server.onDefinitionHandler, hdt, h, hword, hfs, hks, hstr,
                hscan, hconf]
            · cases hk : env.analyzer.getDirectiveStatementKeywordByNodeType p with
              | none =>
                  simp [Server.onDefinitionHandler, hdt, hk, hword, hfs, hks,
                    hstr, hscan, hconf]
              | some k =>
                  simp [Server.onDefinitionHandler, hdt, hk, h, hword, hfs, hks,
                    hstr, hscan, hconf]

/-- C10, witness: the handler evaluated on a concrete environment whose
document text is unknown returns the empty array, and the clamped word
position is non-negative. -/
theorem claimC10_witness :
    Server.onDefinitionHandler
        ⟨⟨fun _ => none, fun _ => none, fun _ => none, fun _ => none,
            fun _ => none, fun s _ => s, fun _ _ _ => none, fun _ _ => none,
            fun _ => [], fun _ _ _ => false, fun _ _ _ => [],
            fun _ _ _ => false, fun _ => [], fun _ => none, fun _ => []⟩,
          ⟨[], []⟩, fun _ => none, fun s => s, fun s => s⟩
        ⟨"doc.bb", ⟨0, 0⟩⟩
      = some [] ∧
    0 ≤ (Server.wordPositionOf (⟨"doc.bb", ⟨0, 0⟩⟩ :
        Server.TextDocumentPositionParams).position).character :=
  ⟨(claimC10_theorem
      ⟨⟨fun _ => none, fun _ => none, fun _ => none, fun _ => none,
          fun _ => none, fun s _ => s, fun _ _ _ => none, fun _ _ => none,
          fun _ => [], fun _ _ _ => false, fun _ _ _ => [],
          fun _ _ _ => false, fun _ => [], fun _ => none, fun _ => []⟩,
        ⟨[], []⟩, fun _ => none, fun s => s, fun s => s⟩
      ⟨"doc.bb", ⟨0, 0⟩⟩).2.1 rfl,
    (claimC10_theorem
      ⟨⟨fun _ => none, fun _ => none, fun _ => none, fun _ => none,
          fun _ => none, fun s _ => s, fun _ _ _ => none, fun _ _ => none,
          fun _ => [], fun _ _ _ => false, fun _ _ _ => [],
          fun _ _ _ => false, fun _ => [], fun _ => none, fun _ => []⟩,
        ⟨[], []⟩, fun _ => none, fun s => s, fun s => s⟩
      ⟨"doc.bb", ⟨0, 0⟩⟩).2.2.2.2⟩
